import Mathlib

/-!
Verification of the go-server HTTP core: a shallow embedding of the
request decoder, header map, response encoder, router, keep-alive
decision and content-encoding codec, with theorems about the
properties stated in the specification.

Go strings and byte slices are modelled as `List Char` (the server only
manipulates them bytewise); Go's `map[string]string` is modelled as an
association list whose iteration order stands in for Go's unspecified
map iteration order (all properties proved below are either
order-insensitive or proved under the header-map invariant that makes
the scan order immaterial).  A Go run-time panic (index out of range,
slice bounds out of range) is modelled as `none`.
-/

namespace GoHttp

/-- Strings / byte slices, modelled as lists of characters. -/
abbrev Str := List Char

/-- Helper for the splitters: prepend a character to the first part. -/
def consHead (c : Char) : List Str → List Str
  | [] => [[c]]
  | h :: r => (c :: h) :: r

/-- Go `strings.Split(s, "\r\n")`: split on every occurrence of CRLF,
leftmost first; the result is never empty. -/
def splitCRLF : Str → List Str
  | [] => [[]]
  | '\r' :: '\n' :: t => [] :: splitCRLF t
  | c :: t => consHead c (splitCRLF t)

/-- Go `strings.Split(s, sep)` for a one-character separator. -/
def splitOn (sep : Char) : Str → List Str
  | [] => [[]]
  | c :: t => if c = sep then [] :: splitOn sep t else consHead c (splitOn sep t)

/-- Go `strings.SplitN(s, sep, 2)` for a one-character separator: at most
two parts, the second being everything after the first separator. -/
def splitFirst (sep : Char) : Str → List Str
  | [] => [[]]
  | c :: t => if c = sep then [[], t] else consHead c (splitFirst sep t)

/-- Whitespace characters trimmed by Go `strings.TrimSpace` (ASCII part). -/
def isSpaceChar (c : Char) : Bool :=
  c = ' ' ∨ c = '\t' ∨ c = '\n' ∨ c = '\x0b' ∨ c = '\x0c' ∨ c = '\r'

/-- Go `strings.TrimSpace` (ASCII model). -/
def trimSpace (s : Str) : Str :=
  ((s.dropWhile isSpaceChar).reverse.dropWhile isSpaceChar).reverse

/-- ASCII case folding of one character (Go `strings.EqualFold`,
restricted to the ASCII range the server uses). -/
def foldChar (c : Char) : Char :=
  if 'A' ≤ c ∧ c ≤ 'Z' then Char.ofNat (c.toNat + 32) else c

/-- Go `strings.EqualFold` (ASCII model): equality up to letter case. -/
def eqFold (a b : Str) : Bool := decide (a.map foldChar = b.map foldChar)

/-- Characters allowed in a header field name by Go
`net/textproto.validHeaderFieldByte` (the HTTP token characters). -/
def isTokenChar (c : Char) : Bool :=
  c.isAlpha || c.isDigit ||
    List.contains ['!', '#', '$', '%', '&', Char.ofNat 39, '*', '+', '-',
      '.', Char.ofNat 94, '_', Char.ofNat 96, '|', Char.ofNat 126] c

/-- Canonicalisation loop of Go `net/textproto.CanonicalMIMEHeaderKey`:
uppercase the first letter and every letter following a hyphen,
lowercase the rest.  The `up` flag says whether the next letter starts a
hyphen-separated segment. -/
def canonAux (up : Bool) : Str → Str
  | [] => []
  | c :: t =>
    let c' := if up ∧ c.isLower then Char.ofNat (c.toNat - 32)
      else if ¬ up ∧ c.isUpper then Char.ofNat (c.toNat + 32)
      else c
    c' :: canonAux (c' = '-') t

/-- Go `net/http.CanonicalHeaderKey`: canonicalise a valid header name;
a name containing a non-token character is returned unchanged. -/
def canonicalHeaderKey (s : Str) : Str :=
  if s.all isTokenChar then canonAux true s else s

/-- The `Headers` type of `http.go` (`map[string]string`), modelled as an
association list; Go map iteration order is arbitrary, list order here. -/
abbrev Headers := List (Str × Str)

/-- Method `Headers.Get` of `http.go`: scan for a case-insensitive key
match, returning the value and a found flag. -/
def headersGet (h : Headers) (k : Str) : Str × Bool :=
  match h with
  | [] => ([], false)
  | (hk, v) :: t => if eqFold hk k then (v, true) else headersGet t k

/-- Go `delete(h, k)`: remove the entry stored under exactly the key
`k` (byte-wise equality, not case-insensitive). -/
def eraseKey (h : Headers) (k : Str) : Headers :=
  h.filter (fun e => decide (e.1 ≠ k))

/-- The overwrite loop of `Headers.Set`: replace the value of the first
case-insensitive match in place, keeping the stored key; `none` when no
entry matches. -/
def setExisting (k v : Str) : Headers → Option Headers
  | [] => none
  | (hk, hv) :: t =>
    if eqFold hk k then some ((hk, v) :: t)
    else (setExisting k v t).map ((hk, hv) :: ·)

/-- Method `Headers.Set` of `http.go`: no-op on an empty name, exact-key
delete on an empty value, otherwise trim the name, overwrite a
case-insensitive match in place, or insert under the canonical key. -/
def headersSet (h : Headers) (k v : Str) : Headers :=
  if k = [] then h
  else if v = [] then eraseKey h k
  else
    let k' := trimSpace k
    match setExisting k' v h with
    | some h' => h'
    | none => h ++ [(canonicalHeaderKey k', v)]

/-- The `Request` struct of `http.go`. -/
structure Request where
  method : Str
  target : Str
  version : Str
  headers : Headers
  body : Str
deriving DecidableEq, Repr

/-- The header loop of `Request.From`: process the header lines in
order, skipping empty lines; a non-empty line with no colon makes Go
index `kv[1]` out of range, a panic modelled as `none`. -/
def processHeaderLines (h : Headers) : List Str → Option Headers
  | [] => some h
  | l :: t =>
    if l.length = 0 then processHeaderLines h t
    else
      match splitFirst ':' l with
      | [k, v] => processHeaderLines (headersSet h (trimSpace k) (trimSpace v)) t
      | _ => none

/-- Method `Request.From` of `http.go`.  The result pairs the decoded
request with the Go `error` return value (always `nil`, that is `none`,
on every completing path); a run-time panic — `metaSegs[1]`/`metaSegs[2]`
out of range when the request line has fewer than three tokens, the
slice `parts[1:len(parts)-1]` out of bounds when the buffer has no CRLF,
or `kv[1]` out of range on a colon-free header line — is modelled as the
whole computation returning `none`. -/
def Request.From (b : Str) : Option (Request × Option Str) :=
  let parts := splitCRLF b
  let metaSegs := splitOn ' ' (parts.headD [])
  match metaSegs.get? 0, metaSegs.get? 1, metaSegs.get? 2 with
  | some m, some t, some v =>
    if parts.length < 2 then none
    else
      match processHeaderLines [] ((parts.drop 1).dropLast) with
      | none => none
      | some hs =>
        some ({ method := trimSpace m, target := trimSpace t,
                version := trimSpace v, headers := hs,
                body := parts.getLastD [] }, none)
  | _, _, _ => none

/-- Decimal rendering of a number, as Go `fmt.Sprintf` with a `%d` verb. -/
def natToStr (n : Nat) : Str := Nat.toDigits 10 n

/-- The CRLF line terminator. -/
def crlf : Str := ['\r', '\n']

/-- Go `net/http.StatusText`, restricted to the status codes this server
emits; unknown codes map to the empty string, as in Go. -/
def statusText (c : Nat) : Str :=
  if c = 200 then "OK".data
  else if c = 201 then "Created".data
  else if c = 404 then "Not Found".data
  else if c = 500 then "Internal Server Error".data
  else []

/-- The `Connection` header name constant of `http.go`. -/
def connectionKey : Str := "Connection".data

/-- The `keep-alive` connection value constant of `http.go`. -/
def keepAliveVal : Str := "keep-alive".data

/-- The `close` connection value constant of `http.go`. -/
def closeVal : Str := "close".data

/-- The `Content-Length` header name constant of `http.go`. -/
def contentLengthKey : Str := "Content-Length".data

/-- Header preparation steps of `httpResponse`: a `nil` map becomes an
empty one, and `Connection: keep-alive` is set when no case-insensitive
`Connection` entry is present. -/
def respHeaders (headers : Option Headers) : Headers :=
  let hs := headers.getD []
  if (headersGet hs connectionKey).2 then hs
  else headersSet hs connectionKey keepAliveVal

/-- One emitted header line `Name: value CRLF` of `httpResponse`. -/
def headerLine (e : Str × Str) : Str := e.1 ++ ':' :: ' ' :: e.2 ++ crlf

/-- The status line `HTTP/1.1 code reason CRLF` of `httpResponse`. -/
def statusLine (code : Nat) : Str :=
  "HTTP/1.1 ".data ++ natToStr code ++ ' ' :: (statusText code ++ crlf)

/-- The byte string built by `httpResponse` of `http.go`: status line,
header lines (in map iteration order, modelled as list order), then —
only when the body is non-empty — a `Content-Length` line, a blank line
and the body. -/
def httpResponseStr (code : Nat) (headers : Option Headers) (body : Str) : Str :=
  let s := statusLine code ++ ((respHeaders headers).map headerLine).flatten
  if 0 < body.length then
    s ++ "Content-Length: ".data ++ natToStr body.length ++ crlf ++ crlf ++ body
  else s

/-- The bytes written by `server.handleNotFound` of `handlers.go`:
`httpResponse(w, http.StatusNotFound, nil, "")`. -/
def notFoundResponse : Str := httpResponseStr 404 none []

/-- A registered route of `server.go` (`match`): method, path-prefix and
handler; the handler is abstract in the model. -/
structure RouteEntry (α : Type) where
  method : Str
  pre : Str
  handler : α

/-- The scan loop of `server.Route`: return the handler of the first
entry whose method equals the request method and whose path-prefix is a
prefix of the request target (`strings.HasPrefix`); the not-found
handler when no entry matches. -/
def routeSelect {α : Type} (routes : List (RouteEntry α)) (notFound : α)
    (m tgt : Str) : α :=
  match routes with
  | [] => notFound
  | r :: t =>
    if m = r.method ∧ r.pre.isPrefixOf tgt then r.handler
    else routeSelect t notFound m tgt

/-- The keep-alive decision of `server.handleConn`: HTTP/1.1 keeps the
connection unless the `Connection` value case-insensitively equals
`close`; any other version keeps it only when the value equals
`keep-alive`. -/
def keepAliveDecision (version connectionHeader : Str) : Bool :=
  if version = "HTTP/1.1".data then !(eqFold connectionHeader closeVal)
  else eqFold connectionHeader keepAliveVal

/-- The keep-alive decision applied to a request, with the `Connection`
value read through `Headers.Get` (found flag discarded, as in the
source). -/
def keepAliveOf (req : Request) : Bool :=
  keepAliveDecision req.version (headersGet req.headers connectionKey).1

/-- Modelled from the spec: the request wire format of §6 — `METHOD SP
TARGET SP VERSION CRLF`, header lines `Name: value CRLF`, a blank CRLF,
then the raw body.  The repository holds no request serialiser (only the
decoder), so this encoder follows the spec's words. -/
def wireEncode (r : Request) : Str :=
  r.method ++ ' ' :: (r.target ++ ' ' :: (r.version ++ crlf))
    ++ (r.headers.map headerLine).flatten ++ crlf ++ r.body

/-- Pairwise case-insensitive distinctness of a list of names. -/
def keysDistinctFold : List Str → Bool
  | [] => true
  | k :: t => t.all (fun f => !(eqFold k f)) && keysDistinctFold t

/-- The header-map invariant (spec §3): at most one stored entry per
case-insensitive name. -/
def hdrInv (h : Headers) : Bool := keysDistinctFold (h.map Prod.fst)

/-- A string free of carriage returns. -/
def noCR (s : Str) : Bool := s.all (fun c => decide (c ≠ '\r'))

/-- A request-line field that survives the wire round trip: non-empty,
free of carriage returns and of the space separator, and unchanged by
trimming. -/
def validMeta (f : Str) : Bool :=
  !(f.isEmpty) && noCR f && f.all (fun c => decide (c ≠ ' ')) &&
    decide (trimSpace f = f)

/-- A header entry that survives the wire round trip: name non-empty,
colon-free, CR-free and trim-invariant; value non-empty, CR-free and
trim-invariant. -/
def validHeader (e : Str × Str) : Bool :=
  !(e.1.isEmpty) && noCR e.1 && e.1.all (fun c => decide (c ≠ ':')) &&
    decide (trimSpace e.1 = e.1) &&
    !(e.2.isEmpty) && noCR e.2 && decide (trimSpace e.2 = e.2)

/-- Validity of a whole request for the wire round trip: valid
method/target/version, valid header entries with pairwise
case-insensitively distinct names, and a CR-free body. -/
def ValidRequest (R : Request) : Bool :=
  validMeta R.method && validMeta R.target && validMeta R.version &&
    R.headers.all validHeader && hdrInv R.headers && noCR R.body

/-! ### Content-encoding codec

`encoding.go` delegates to Go's standard `compress/gzip`, which is not
part of this repository.  The codec is therefore modelled from the spec
(§4.4: a gzip codec with `decode(encode(x)) == x` and `DecodeError` on
data that is not valid codec-framed input): the gzip container format is
embedded executably — header, DEFLATE stream made of stored (BTYPE 00)
blocks, CRC-32 and length trailer — with the decoder rejecting
ill-framed input, wrong checksums and wrong lengths. -/

/-- Byte sequences, as natural numbers (a byte is a value below 256). -/
abbrev Bytes := List Nat

/-- The reflected CRC-32 (IEEE) polynomial. -/
def crcPoly : Nat := 0xEDB88320

/-- One bit step of the CRC-32 shift register. -/
def crcStepBit (c : Nat) : Nat := if c % 2 = 1 then (c / 2) ^^^ crcPoly else c / 2

/-- Eight bit steps: the per-byte CRC-32 loop. -/
def crcStep8 (c : Nat) : Nat :=
  crcStepBit (crcStepBit (crcStepBit (crcStepBit
    (crcStepBit (crcStepBit (crcStepBit (crcStepBit c)))))))

/-- Absorb one byte into the CRC-32 state. -/
def crcByte (c b : Nat) : Nat := crcStep8 (c ^^^ b)

/-- CRC-32 (IEEE) of a byte sequence, as in the gzip trailer. -/
def crc32 (xs : Bytes) : Nat := (xs.foldl crcByte 0xFFFFFFFF) ^^^ 0xFFFFFFFF

/-- A 16-bit value in little-endian byte order. -/
def le16 (n : Nat) : Bytes := [n % 256, n / 256 % 256]

/-- A 32-bit value in little-endian byte order. -/
def le32 (n : Nat) : Bytes :=
  [n % 256, n / 256 % 256, n / 65536 % 256, n / 16777216 % 256]

/-- Read a 16-bit little-endian value. -/
def le16val (a b : Nat) : Nat := a + 256 * b

/-- Read a 32-bit little-endian value. -/
def le32val (a b c d : Nat) : Nat := a + 256 * b + 65536 * c + 16777216 * d

/-- The DEFLATE stream of the modelled encoder: stored (uncompressed)
blocks of at most 65535 bytes each, the last one flagged final.  Each
block is the byte-aligned stored-block layout: a first byte holding the
BFINAL bit and BTYPE 00, then LEN and NLEN (ones' complement of LEN) in
little-endian order, then the raw bytes. -/
def deflateStored (xs : Bytes) : Bytes :=
  if xs.length ≤ 65535 then
    1 :: (le16 xs.length ++ le16 (65535 - xs.length) ++ xs)
  else
    0 :: (le16 65535 ++ le16 0 ++ (xs.take 65535 ++ deflateStored (xs.drop 65535)))
termination_by xs.length
decreasing_by
· simp only [List.length_drop]
  omega

/-- Decode a DEFLATE stream of stored blocks, returning the data and the
bytes following the final block; `none` on any framing violation
(non-stored block type, NLEN mismatch, truncated block). -/
def inflateStored : Bytes → Option (Bytes × Bytes)
  | b :: l0 :: l1 :: n0 :: n1 :: rest =>
    if b / 2 % 4 = 0 ∧ le16val n0 n1 = 65535 - le16val l0 l1 ∧
        le16val l0 l1 ≤ rest.length then
      if b % 2 = 1 then
        some (rest.take (le16val l0 l1), rest.drop (le16val l0 l1))
      else
        match inflateStored (rest.drop (le16val l0 l1)) with
        | none => none
        | some (d, r) => some (rest.take (le16val l0 l1) ++ d, r)
    else none
  | _ => none
termination_by v => v.length
decreasing_by
· simp only [List.length_cons, List.length_drop]
  omega

/-- The fixed ten-byte gzip member header the encoder writes: magic
bytes, CM 8 (deflate), no flags, zero mtime, default XFL, unknown OS. -/
def gzipHeader : Bytes := [31, 139, 8, 0, 0, 0, 0, 0, 0, 255]

/-- Modelled from the spec: `gzipEncoder.Encode` of `encoding.go`
(`compress/gzip` writer) — a gzip member holding the input in stored
DEFLATE blocks, followed by the CRC-32 and length-mod-2³² trailer. -/
def gzipEncode (xs : Bytes) : Bytes :=
  gzipHeader ++ deflateStored xs ++ le32 (crc32 xs) ++ le32 (xs.length % 4294967296)

/-- Modelled from the spec: `gzipEncoder.Decode` of `encoding.go`
(`compress/gzip` reader) — parse a gzip member (flagless header, stored
DEFLATE blocks), check the CRC-32 and length trailer, and, as Go's
multistream reader does, continue with any following member,
concatenating the data; every framing or checksum violation is the
`DecodeError` outcome, modelled as `none`. -/
def gzipDecode : Bytes → Option Bytes
  | 31 :: 139 :: 8 :: 0 :: _ :: _ :: _ :: _ :: _ :: _ :: rest =>
    match hrec : inflateStored rest with
    | none => none
    | some (data, rem) =>
      match rem with
      | c0 :: c1 :: c2 :: c3 :: i0 :: i1 :: i2 :: i3 :: rem2 =>
        if le32val c0 c1 c2 c3 = crc32 data ∧
            le32val i0 i1 i2 i3 = data.length % 4294967296 then
          match rem2 with
          | [] => some data
          | u :: rem3 => (gzipDecode (u :: rem3)).map (data ++ ·)
        else none
      | _ => none
  | _ => none
termination_by v => v.length
decreasing_by
· have key : ∀ (n : Nat) (v : Bytes), v.length ≤ n →
      ∀ d r, inflateStored v = some (d, r) → r.length + 5 ≤ v.length := by
      intro n
      induction n with
      | zero =>
        intro v hv d r h
        rcases v with _ | ⟨c, t⟩
        · simp [inflateStored] at h
        · simp at hv
      | succ n ih =>
        intro v hv d r h
        rcases v with _ | ⟨b, _ | ⟨l0, _ | ⟨l1, _ | ⟨n0, _ | ⟨n1, rest⟩⟩⟩⟩⟩
        · simp [inflateStored] at h
        · simp [inflateStored] at h
        · simp [inflateStored] at h
        · simp [inflateStored] at h
        · simp [inflateStored] at h
        · rw [inflateStored] at h
          by_cases hg : b / 2 % 4 = 0 ∧ le16val n0 n1 = 65535 - le16val l0 l1 ∧
              le16val l0 l1 ≤ rest.length
          · rw [if_pos hg] at h
            by_cases hf : b % 2 = 1
            · rw [if_pos hf, Option.some.injEq, Prod.mk.injEq] at h
              obtain ⟨h1, h2⟩ := h
              subst h2
              simp only [List.length_cons, List.length_drop]
              omega
            · rw [if_neg hf] at h
              rcases hrec : inflateStored (rest.drop (le16val l0 l1)) with _ | ⟨d0, r0⟩
              · rw [hrec] at h; exact absurd h (by simp)
              · rw [hrec, Option.some.injEq, Prod.mk.injEq] at h
                obtain ⟨h1, h2⟩ := h
                subst h2
                have hr := ih (rest.drop (le16val l0 l1)) (by
                  simp only [List.length_cons] at hv
                  simp only [List.length_drop]
                  omega) d0 r0 hrec
                simp only [List.length_drop] at hr
                simp only [List.length_cons]
                omega
          · rw [if_neg hg] at h
            exact absurd h (by simp)
  have := key rest.length rest le_rfl data
    (c0 :: c1 :: c2 :: c3 :: i0 :: i1 :: i2 :: i3 :: u :: rem3) hrec
  simp only [List.length_cons] at this ⊢
  omega

/-- Reading back a little-endian 16-bit value. -/
theorem le16val_split (n : Nat) (h : n ≤ 65535) :
    le16val (n % 256) (n / 256 % 256) = n := by
  unfold le16val; omega

/-- Inflating a stored-block stream recovers the encoded bytes and
leaves exactly the bytes that follow the stream. -/
theorem inflate_deflate : ∀ (n : Nat) (xs : Bytes), xs.length ≤ n →
    ∀ r, inflateStored (deflateStored xs ++ r) = some (xs, r) := by
  have base : ∀ (xs : Bytes), xs.length ≤ 65535 →
      ∀ r, inflateStored (deflateStored xs ++ r) = some (xs, r) := by
    intro xs hlen r
    rw [deflateStored, if_pos hlen]
    simp only [le16, List.cons_append, List.append_assoc, List.nil_append]
    rw [inflateStored]
    rw [if_pos ⟨by norm_num,
      by rw [le16val_split _ (by omega), le16val_split _ hlen],
      by rw [le16val_split _ hlen]; simp⟩]
    rw [if_pos (by norm_num)]
    rw [le16val_split _ hlen]
    rw [List.take_left, List.drop_left]
  intro n
  induction n with
  | zero =>
    intro xs h r
    exact base xs (by omega) r
  | succ n ih =>
    intro xs hn r
    by_cases hlen : xs.length ≤ 65535
    · exact base xs hlen r
    · rw [deflateStored, if_neg hlen]
      simp only [le16, List.cons_append, List.append_assoc, List.nil_append]
      rw [inflateStored]
      rw [if_pos ⟨by norm_num, by unfold le16val; norm_num,
        by unfold le16val
           simp only [List.length_append, List.length_take]
           omega⟩]
      rw [if_neg (by norm_num)]
      have htl : (List.take 65535 xs).length = 65535 :=
        List.length_take_of_le (by omega)
      have hval : le16val 255 255 = 65535 := by unfold le16val; norm_num
      have hdrop : (List.take 65535 xs ++ (deflateStored (List.drop 65535 xs) ++ r)).drop
          (le16val 255 255) = deflateStored (List.drop 65535 xs) ++ r := by
        rw [hval]; exact List.drop_left' htl
      have htake : (List.take 65535 xs ++ (deflateStored (List.drop 65535 xs) ++ r)).take
          (le16val 255 255) = List.take 65535 xs := by
        rw [hval]; exact List.take_left' htl
      rw [hdrop, ih (List.drop 65535 xs) (by simp; omega) r]
      rw [htake]
      simp [List.take_append_drop]

/-- The CRC-32 shift register stays a 32-bit value. -/
theorem crcStepBit_lt {c : Nat} (h : c < 4294967296) :
    crcStepBit c < 4294967296 := by
  unfold crcStepBit crcPoly
  split
  · have h1 : c / 2 < 2 ^ 32 := by omega
    have h2 : (0xEDB88320 : Nat) < 2 ^ 32 := by norm_num
    have := Nat.xor_lt_two_pow h1 h2
    omega
  · omega

/-- Absorbing a byte keeps the CRC-32 state a 32-bit value. -/
theorem crcByte_lt {c b : Nat} (hc : c < 4294967296) (hb : b < 256) :
    crcByte c b < 4294967296 := by
  unfold crcByte crcStep8
  have h0 : c ^^^ b < 4294967296 := by
    have h1 : c < 2 ^ 32 := by omega
    have h2 : b < 2 ^ 32 := by omega
    have := Nat.xor_lt_two_pow h1 h2
    omega
  exact crcStepBit_lt (crcStepBit_lt (crcStepBit_lt (crcStepBit_lt
    (crcStepBit_lt (crcStepBit_lt (crcStepBit_lt (crcStepBit_lt h0)))))))

/-- The CRC-32 of a byte sequence is a 32-bit value. -/
theorem crc32_lt (xs : Bytes) (hx : ∀ b ∈ xs, b < 256) :
    crc32 xs < 4294967296 := by
  unfold crc32
  have hfold : ∀ (l : Bytes) (c : Nat), (∀ b ∈ l, b < 256) → c < 4294967296 →
      l.foldl crcByte c < 4294967296 := by
    intro l
    induction l with
    | nil => intro c _ hc; simpa using hc
    | cons b t ih =>
      intro c hl hc
      simp only [List.foldl_cons]
      exact ih (crcByte c b) (fun x hx' => hl x (List.mem_cons_of_mem b hx'))
        (crcByte_lt hc (hl b (List.mem_cons_self b t)))
  have h1 := hfold xs 0xFFFFFFFF hx (by norm_num)
  have h2 : (0xFFFFFFFF : Nat) < 2 ^ 32 := by norm_num
  have := Nat.xor_lt_two_pow (n := 32) (by omega : xs.foldl crcByte 0xFFFFFFFF < 2 ^ 32) h2
  omega

/-- Reading back a little-endian 32-bit value. -/
theorem le32val_split (n : Nat) (h : n < 4294967296) :
    le32val (n % 256) (n / 256 % 256) (n / 65536 % 256) (n / 16777216 % 256) = n := by
  unfold le32val; omega

/-! ### Character and case-folding lemmas -/

/-- Characters with equal code points are equal. -/
theorem charEqOfToNat {a b : Char} (h : a.toNat = b.toNat) : a = b :=
  Char.ext (congrArg UInt32.mk (BitVec.eq_of_toNat_eq h))

/-- Character order is code-point order. -/
theorem charLeIff (a b : Char) : a ≤ b ↔ a.toNat ≤ b.toNat := by
  rw [Char.le_def, UInt32.le_def]
  rfl

/-- Code point of a character built from a small scalar value. -/
theorem toNat_ofNat_lt {n : Nat} (h : n < 55296) : (Char.ofNat n).toNat = n := by
  have hv : n.isValidChar := Or.inl h
  simp only [Char.ofNat, dif_pos hv, Char.ofNatAux, Char.toNat, UInt32.toNat]
  rfl

/-- Case folding in terms of code points. -/
theorem foldChar_eq (c : Char) :
    foldChar c = if 65 ≤ c.toNat ∧ c.toNat ≤ 90 then Char.ofNat (c.toNat + 32) else c := by
  unfold foldChar
  have hA : ('A').toNat = 65 := rfl
  have hZ : ('Z').toNat = 90 := rfl
  by_cases h : 65 ≤ c.toNat ∧ c.toNat ≤ 90
  · rw [if_pos h, if_pos ⟨(charLeIff ..).mpr (hA ▸ h.1), (charLeIff ..).mpr (hZ ▸ h.2)⟩]
  · rw [if_neg h, if_neg (fun hc => h ⟨hA ▸ (charLeIff ..).mp hc.1, hZ ▸ (charLeIff ..).mp hc.2⟩)]

/-- Lowercase test in terms of code points. -/
theorem isLower_iff (c : Char) : c.isLower = true ↔ 97 ≤ c.toNat ∧ c.toNat ≤ 122 := by
  have h1 : (c.val ≥ 97) ↔ 97 ≤ c.toNat := by
    rw [ge_iff_le, UInt32.le_def, BitVec.le_def]; rfl
  have h2 : (c.val ≤ 122) ↔ c.toNat ≤ 122 := by
    rw [UInt32.le_def, BitVec.le_def]; rfl
  simp only [Char.isLower, Bool.and_eq_true, decide_eq_true_iff, h1, h2]

/-- Uppercase test in terms of code points. -/
theorem isUpper_iff (c : Char) : c.isUpper = true ↔ 65 ≤ c.toNat ∧ c.toNat ≤ 90 := by
  have h1 : (c.val ≥ 65) ↔ 65 ≤ c.toNat := by
    rw [ge_iff_le, UInt32.le_def, BitVec.le_def]; rfl
  have h2 : (c.val ≤ 90) ↔ c.toNat ≤ 90 := by
    rw [UInt32.le_def, BitVec.le_def]; rfl
  simp only [Char.isUpper, Bool.and_eq_true, decide_eq_true_iff, h1, h2]

/-- Canonicalisation only changes letter case, so it is invisible to
case folding. -/
theorem canonAux_fold (s : Str) : ∀ up, (canonAux up s).map foldChar = s.map foldChar := by
  induction s with
  | nil => intro up; rfl
  | cons c t ih =>
    intro up
    rw [canonAux]
    simp only [List.map_cons]
    refine congrArg₂ _ ?_ (ih _)
    by_cases h1 : up = true ∧ c.isLower = true
    · rw [if_pos ⟨h1.1, h1.2⟩]
      obtain ⟨hlo, hhi⟩ := (isLower_iff c).mp h1.2
      have ht : (Char.ofNat (c.toNat - 32)).toNat = c.toNat - 32 :=
        toNat_ofNat_lt (by omega)
      rw [foldChar_eq, foldChar_eq, if_pos (by omega : 65 ≤ (Char.ofNat (c.toNat - 32)).toNat ∧ (Char.ofNat (c.toNat - 32)).toNat ≤ 90),
        if_neg (by omega : ¬(65 ≤ c.toNat ∧ c.toNat ≤ 90))]
      refine charEqOfToNat ?_
      rw [toNat_ofNat_lt (by omega), ht]
      omega
    · rw [if_neg (fun hc => h1 ⟨hc.1, hc.2⟩)]
      by_cases h2 : ¬ up = true ∧ c.isUpper = true
      · rw [if_pos ⟨h2.1, h2.2⟩]
        obtain ⟨hlo, hhi⟩ := (isUpper_iff c).mp h2.2
        have ht : (Char.ofNat (c.toNat + 32)).toNat = c.toNat + 32 :=
          toNat_ofNat_lt (by omega)
        rw [foldChar_eq, foldChar_eq, if_neg (by omega : ¬(65 ≤ (Char.ofNat (c.toNat + 32)).toNat ∧ (Char.ofNat (c.toNat + 32)).toNat ≤ 90)),
          if_pos (by omega : 65 ≤ c.toNat ∧ c.toNat ≤ 90)]
      · rw [if_neg (fun hc => h2 ⟨hc.1, hc.2⟩)]

/-- Unfolding of the Boolean case-insensitive comparison. -/
theorem eqFold_iff {a b : Str} : eqFold a b = true ↔ a.map foldChar = b.map foldChar :=
  decide_eq_true_iff

/-- Case-insensitive comparison is reflexive. -/
theorem eqFold_refl (a : Str) : eqFold a a = true := eqFold_iff.mpr rfl

/-- Case-insensitive comparison is symmetric. -/
theorem eqFold_symm {a b : Str} (h : eqFold a b = true) : eqFold b a = true :=
  eqFold_iff.mpr (eqFold_iff.mp h).symm

/-- Case-insensitive comparison is transitive. -/
theorem eqFold_trans {a b c : Str} (h1 : eqFold a b = true) (h2 : eqFold b c = true) :
    eqFold a c = true :=
  eqFold_iff.mpr ((eqFold_iff.mp h1).trans (eqFold_iff.mp h2))

/-- Canonicalising a header name is invisible to case folding. -/
theorem canon_fold (s : Str) :
    (canonicalHeaderKey s).map foldChar = s.map foldChar := by
  unfold canonicalHeaderKey
  split
  · exact canonAux_fold s true
  · rfl

/-- Case-insensitive comparison ignores canonicalisation on the left. -/
theorem eqFold_canon_left (s t : Str) :
    eqFold (canonicalHeaderKey s) t = eqFold s t := by
  unfold eqFold
  rw [canon_fold]

/-! ### Header map lemmas -/

/-- The distinctness invariant as a pairwise predicate. -/
theorem keysDistinctFold_iff (ks : List Str) :
    keysDistinctFold ks = true ↔ ks.Pairwise (fun a b => eqFold a b = false) := by
  induction ks with
  | nil => simp [keysDistinctFold]
  | cons k t ih =>
    simp [keysDistinctFold, List.all_eq_true, ih, List.pairwise_cons,
      Bool.not_eq_true']

/-- Entries of a map with the invariant have pairwise non-fold-equal
keys, in either order of comparison. -/
theorem hdrInv_mem_ne {h : Headers} (hi : hdrInv h = true) {e1 e2 : Str × Str}
    (m1 : e1 ∈ h) (m2 : e2 ∈ h) (hne : e1 ≠ e2) : eqFold e1.1 e2.1 = false := by
  have hp : (h.map Prod.fst).Pairwise (fun a b => eqFold a b = false) :=
    (keysDistinctFold_iff _).mp hi
  have hp2 : h.Pairwise (fun a b => eqFold a.1 b.1 = false) :=
    (List.pairwise_map).mp hp
  have hsym : Symmetric (fun (a b : Str × Str) => eqFold a.1 b.1 = false) := by
    intro a b hab
    cases hx : eqFold b.1 a.1 with
    | false => rfl
    | true =>
      rw [eqFold_symm hx] at hab
      simp at hab
  exact List.Pairwise.forall hsym hp2 m1 m2 hne

/-- A scan over entries none of which fold-match the key finds nothing. -/
theorem headersGet_none {h : Headers} {k : Str}
    (hn : ∀ e ∈ h, eqFold e.1 k = false) : headersGet h k = ([], false) := by
  induction h with
  | nil => rfl
  | cons e t ih =>
    obtain ⟨hk, v⟩ := e
    rw [headersGet, if_neg (by
      rw [hn (hk, v) (List.mem_cons_self ..)]
      simp)]
    exact ih (fun e he => hn e (List.mem_cons_of_mem _ he))

/-- The found flag of a scan detects a fold-matching entry. -/
theorem headersGet_found_iff (h : Headers) (k : Str) :
    (headersGet h k).2 = true ↔ ∃ e ∈ h, eqFold e.1 k = true := by
  induction h with
  | nil => simp [headersGet]
  | cons e t ih =>
    obtain ⟨hk, v⟩ := e
    rw [headersGet]
    by_cases hm : eqFold hk k = true
    · rw [if_pos hm]
      exact ⟨fun _ => ⟨(hk, v), List.mem_cons_self .., hm⟩, fun _ => rfl⟩
    · rw [if_neg hm, ih]
      constructor
      · intro ⟨e, he, hee⟩
        exact ⟨e, List.mem_cons_of_mem _ he, hee⟩
      · intro ⟨e, he, hee⟩
        rcases List.mem_cons.mp he with h1 | h1
        · subst h1
          exact absurd hee hm
        · exact ⟨e, h1, hee⟩

/-- The scan skips a block of non-matching entries. -/
theorem headersGet_append {h1 h2 : Headers} {k : Str}
    (hn : ∀ e ∈ h1, eqFold e.1 k = false) :
    headersGet (h1 ++ h2) k = headersGet h2 k := by
  induction h1 with
  | nil => rfl
  | cons e t ih =>
    obtain ⟨hk, v⟩ := e
    rw [List.cons_append, headersGet, if_neg (by
      rw [hn (hk, v) (List.mem_cons_self ..)]
      simp)]
    exact ih (fun e he => hn e (List.mem_cons_of_mem _ he))

/-- The overwrite loop fails exactly when no entry fold-matches. -/
theorem setExisting_none_iff {k v : Str} {h : Headers} :
    setExisting k v h = none ↔ ∀ e ∈ h, eqFold e.1 k = false := by
  induction h with
  | nil => simp [setExisting]
  | cons e t ih =>
    obtain ⟨hk, hv⟩ := e
    rw [setExisting]
    by_cases hm : eqFold hk k = true
    · rw [if_pos hm]
      constructor
      · intro hx
        simp at hx
      · intro hall
        have := hall (hk, hv) (List.mem_cons_self ..)
        simp [hm] at this
    · rw [if_neg hm]
      constructor
      · intro hnone e he
        rcases List.mem_cons.mp he with h1 | h1
        · subst h1
          exact Bool.eq_false_iff.mpr hm
        · refine ih.mp ?_ e h1
          rcases hx : setExisting k v t with _ | h'
          · rfl
          · rw [hx] at hnone
            simp at hnone
      · intro hall
        rw [ih.mpr (fun e he => hall e (List.mem_cons_of_mem _ he))]
        rfl

/-- The overwrite loop keeps the stored keys unchanged. -/
theorem setExisting_keys {k v : Str} : ∀ {h h' : Headers},
    setExisting k v h = some h' → h'.map Prod.fst = h.map Prod.fst := by
  intro h
  induction h with
  | nil => intro h' hs; simp [setExisting] at hs
  | cons e t ih =>
    intro h' hs
    obtain ⟨hk, hv⟩ := e
    rw [setExisting] at hs
    by_cases hm : eqFold hk k = true
    · rw [if_pos hm, Option.some.injEq] at hs
      subst hs
      rfl
    · rw [if_neg hm] at hs
      rcases hx : setExisting k v t with _ | t'
      · rw [hx] at hs
        exact absurd hs (by simp)
      · rw [hx] at hs
        simp only [Option.map_some', Option.some.injEq] at hs
        subst hs
        simp only [List.map_cons]
        rw [ih hx]

/-- Case-insensitive comparison ignores canonicalisation on the right. -/
theorem eqFold_canon_right (t s : Str) :
    eqFold t (canonicalHeaderKey s) = eqFold t s := by
  unfold eqFold
  rw [canon_fold]

/-- Distinctness survives appending one fresh name. -/
theorem keysDistinctFold_append_one {ks : List Str} {k0 : Str}
    (hd : keysDistinctFold ks = true) (hf : ∀ k ∈ ks, eqFold k k0 = false) :
    keysDistinctFold (ks ++ [k0]) = true := by
  rw [keysDistinctFold_iff, List.pairwise_append]
  exact ⟨(keysDistinctFold_iff _).mp hd, by simp, by simpa using hf⟩

/-- Distinctness restricts to sublists. -/
theorem keysDistinctFold_sublist {ks1 ks2 : List Str} (hs : List.Sublist ks1 ks2)
    (hd : keysDistinctFold ks2 = true) : keysDistinctFold ks1 = true := by
  rw [keysDistinctFold_iff] at hd ⊢
  exact hd.sublist hs

/-- Unfolding of `Headers.Set` with a non-empty name and value. -/
theorem headersSet_nonempty {h : Headers} {k v : Str} (hk : k ≠ []) (hv : v ≠ []) :
    headersSet h k v =
      match setExisting (trimSpace k) v h with
      | some h' => h'
      | none => h ++ [(canonicalHeaderKey (trimSpace k), v)] := by
  unfold headersSet
  rw [if_neg hk, if_neg hv]

/-- Setting preserves the header-map invariant. -/
theorem hdrInv_set {h : Headers} (k v : Str) (hi : hdrInv h = true) :
    hdrInv (headersSet h k v) = true := by
  by_cases hk : k = []
  · unfold headersSet
    rw [if_pos hk]
    exact hi
  · by_cases hv : v = []
    · unfold headersSet
      rw [if_neg hk, if_pos hv]
      unfold hdrInv at hi ⊢
      unfold eraseKey
      exact keysDistinctFold_sublist (List.Sublist.map _ (List.filter_sublist h)) hi
    · rw [headersSet_nonempty hk hv]
      rcases hx : setExisting (trimSpace k) v h with _ | h'
      · unfold hdrInv
        rw [List.map_append]
        refine keysDistinctFold_append_one hi ?_
        intro k1 hk1
        obtain ⟨e, he, hek⟩ := List.mem_map.mp hk1
        have hne := setExisting_none_iff.mp hx e he
        rw [eqFold_canon_right]
        subst hek
        exact hne
      · unfold hdrInv
        rw [setExisting_keys hx]
        exact hi

/-- Overwriting an existing fold-matching entry makes the new value the
one any fold-equal lookup reads. -/
theorem setExisting_get {k v n2 : Str} (hf : eqFold k n2 = true) :
    ∀ {h h' : Headers}, setExisting k v h = some h' →
      headersGet h' n2 = (v, true) := by
  intro h
  induction h with
  | nil => intro h' hs; simp [setExisting] at hs
  | cons e t ih =>
    intro h' hs
    obtain ⟨hk, hv0⟩ := e
    rw [setExisting] at hs
    by_cases hm : eqFold hk k = true
    · rw [if_pos hm, Option.some.injEq] at hs
      subst hs
      rw [headersGet, if_pos (eqFold_trans hm hf)]
    · rw [if_neg hm] at hs
      rcases hx : setExisting k v t with _ | t'
      · rw [hx] at hs
        exact absurd hs (by simp)
      · rw [hx] at hs
        simp only [Option.map_some', Option.some.injEq] at hs
        subst hs
        rw [headersGet, if_neg (fun hc =>
          hm (eqFold_trans hc (eqFold_symm hf)))]
        exact ih hx

/-- After a set with a trim-invariant non-empty name and a non-empty
value, a lookup under any case-variant of the name reads that value. -/
theorem headersGet_set {h : Headers} {n1 n2 v : Str} (ht : trimSpace n1 = n1)
    (hn : n1 ≠ []) (hv : v ≠ []) (hf : eqFold n1 n2 = true) :
    headersGet (headersSet h n1 v) n2 = (v, true) := by
  rw [headersSet_nonempty hn hv, ht]
  rcases hx : setExisting n1 v h with _ | h'
  · have hall := setExisting_none_iff.mp hx
    rw [headersGet_append (fun e he => by
      cases hc : eqFold e.1 n2 with
      | false => rfl
      | true =>
        have := eqFold_trans hc (eqFold_symm hf)
        rw [hall e he] at this
        cases this)]
    rw [headersGet, if_pos (by rw [eqFold_canon_left]; exact hf)]
  · exact setExisting_get hf hx

/-- Deleting a key that no stored key equals byte-wise is a no-op. -/
theorem eraseKey_eq_self {h : Headers} {k : Str} (hne : ∀ e ∈ h, e.1 ≠ k) :
    eraseKey h k = h := by
  unfold eraseKey
  refine List.filter_eq_self.mpr ?_
  intro e he
  simp [hne e he]

/-- Under the invariant, the scan reads the unique fold-matching entry. -/
theorem headersGet_unique {h : Headers} (hi : hdrInv h = true) {k' v k : Str}
    (hm : (k', v) ∈ h) (hf : eqFold k' k = true) : headersGet h k = (v, true) := by
  induction h with
  | nil => cases hm
  | cons e t ih =>
    obtain ⟨hk, hv0⟩ := e
    by_cases hc : eqFold hk k = true
    · rw [headersGet, if_pos hc]
      rcases List.mem_cons.mp hm with h1 | h1
      · injection h1 with e1 e2
        rw [e2]
      · exfalso
        have hne := hdrInv_mem_ne hi (List.mem_cons_self ..) (List.mem_cons_of_mem _ h1)
          (fun hcontra => ?_)
        · rw [eqFold_trans hc (eqFold_symm hf)] at hne
          cases hne
        · rw [← hcontra] at h1
          have hp : keysDistinctFold (((hk, hv0) :: t).map Prod.fst) = true := hi
          rw [List.map_cons, keysDistinctFold, Bool.and_eq_true, List.all_eq_true] at hp
          have := hp.1 hk (List.mem_map_of_mem _ h1)
          rw [eqFold_refl] at this
          cases this
    · rw [headersGet, if_neg hc]
      rcases List.mem_cons.mp hm with h1 | h1
      · exfalso
        injection h1 with e1 e2
        rw [← e1] at hc
        exact hc hf
      · refine ih ?_ h1
        have hp : keysDistinctFold (((hk, hv0) :: t).map Prod.fst) = true := hi
        rw [List.map_cons, keysDistinctFold, Bool.and_eq_true] at hp
        exact hp.2

/-- No fold-matching entry means an empty fold-filtered list. -/
theorem filter_fold_nil {h : Headers} {k : Str}
    (hn : ∀ e ∈ h, eqFold e.1 k = false) :
    h.filter (fun e => eqFold e.1 k) = [] := by
  refine List.filter_eq_nil_iff.mpr ?_
  intro e he
  rw [hn e he]
  simp

/-- Under the invariant, a successful lookup pins the fold-filtered list
to exactly one entry. -/
theorem filter_fold_len_one {h : Headers} (hi : hdrInv h = true) {k : Str}
    (hfound : (headersGet h k).2 = true) :
    (h.filter (fun e => eqFold e.1 k)).length = 1 := by
  induction h with
  | nil => simp [headersGet] at hfound
  | cons e t ih =>
    obtain ⟨hk, hv0⟩ := e
    have hp : keysDistinctFold (((hk, hv0) :: t).map Prod.fst) = true := hi
    rw [List.map_cons, keysDistinctFold, Bool.and_eq_true, List.all_eq_true] at hp
    by_cases hc : eqFold hk k = true
    · rw [List.filter_cons_of_pos (by simpa using hc)]
      have htail : t.filter (fun e => eqFold e.1 k) = [] := by
        refine filter_fold_nil ?_
        intro e he
        cases hx : eqFold e.1 k with
        | false => rfl
        | true =>
          have h1 := hp.1 e.1 (List.mem_map_of_mem _ he)
          rw [eqFold_trans hc (eqFold_symm hx)] at h1
          cases h1
      rw [htail]
      rfl
    · rw [List.filter_cons_of_neg (by simpa using hc)]
      rw [headersGet, if_neg hc] at hfound
      exact ih hp.2 hfound

/-! ### Splitter lemmas -/

/-- CRLF splitting passes over a CR-free block up to the separator. -/
theorem splitCRLF_append {a : Str} (ha : ∀ c ∈ a, c ≠ '\r') (rest : Str) :
    splitCRLF (a ++ crlf ++ rest) = a :: splitCRLF rest := by
  induction a with
  | nil =>
    show splitCRLF ('\r' :: '\n' :: rest) = [] :: splitCRLF rest
    simp [splitCRLF]
  | cons c a' ih =>
    show splitCRLF (c :: (a' ++ crlf ++ rest)) = (c :: a') :: splitCRLF rest
    rw [splitCRLF.eq_3 _ _ (fun _ hceq _ => ha c (List.mem_cons_self ..) hceq)]
    rw [ih (fun x hx => ha x (List.mem_cons_of_mem _ hx))]
    rfl

/-- A CR-free string is one single CRLF part. -/
theorem splitCRLF_noCR {a : Str} (ha : ∀ c ∈ a, c ≠ '\r') : splitCRLF a = [a] := by
  induction a with
  | nil => rfl
  | cons c a' ih =>
    rw [splitCRLF.eq_3 _ _ (fun _ hceq _ => ha c (List.mem_cons_self ..) hceq)]
    rw [ih (fun x hx => ha x (List.mem_cons_of_mem _ hx))]
    rfl

/-- Separator splitting passes over a separator-free block. -/
theorem splitOn_append {sep : Char} {a : Str} (ha : ∀ c ∈ a, c ≠ sep) (rest : Str) :
    splitOn sep (a ++ sep :: rest) = a :: splitOn sep rest := by
  induction a with
  | nil =>
    show splitOn sep (sep :: rest) = [] :: splitOn sep rest
    rw [splitOn, if_pos rfl]
  | cons c a' ih =>
    show splitOn sep (c :: (a' ++ sep :: rest)) = (c :: a') :: splitOn sep rest
    rw [splitOn, if_neg (ha c (List.mem_cons_self ..))]
    rw [ih (fun x hx => ha x (List.mem_cons_of_mem _ hx))]
    rfl

/-- A separator-free string is one single part. -/
theorem splitOn_noSep {sep : Char} {a : Str} (ha : ∀ c ∈ a, c ≠ sep) :
    splitOn sep a = [a] := by
  induction a with
  | nil => rfl
  | cons c a' ih =>
    rw [splitOn, if_neg (ha c (List.mem_cons_self ..))]
    rw [ih (fun x hx => ha x (List.mem_cons_of_mem _ hx))]
    rfl

/-- Splitting at the first separator after a separator-free block. -/
theorem splitFirst_append {sep : Char} {a : Str} (ha : ∀ c ∈ a, c ≠ sep) (rest : Str) :
    splitFirst sep (a ++ sep :: rest) = [a, rest] := by
  induction a with
  | nil =>
    show splitFirst sep (sep :: rest) = [[], rest]
    rw [splitFirst, if_pos rfl]
  | cons c a' ih =>
    show splitFirst sep (c :: (a' ++ sep :: rest)) = [c :: a', rest]
    rw [splitFirst, if_neg (ha c (List.mem_cons_self ..))]
    rw [ih (fun x hx => ha x (List.mem_cons_of_mem _ hx))]
    rfl

/-- A separator-free string yields a single part with no second token. -/
theorem splitFirst_noSep {sep : Char} {a : Str} (ha : ∀ c ∈ a, c ≠ sep) :
    splitFirst sep a = [a] := by
  induction a with
  | nil => rfl
  | cons c a' ih =>
    rw [splitFirst, if_neg (ha c (List.mem_cons_self ..))]
    rw [ih (fun x hx => ha x (List.mem_cons_of_mem _ hx))]
    rfl

/-- Trimming absorbs a single leading space. -/
theorem trimSpace_cons_space (v : Str) : trimSpace (' ' :: v) = trimSpace v := by
  unfold trimSpace
  rw [List.dropWhile_cons_of_pos (by rfl)]

/-! ### Request decoding lemmas -/

/-- The header loop distributes over list concatenation. -/
theorem processHeaderLines_append (l1 : List Str) : ∀ (h : Headers) (l2 : List Str),
    processHeaderLines h (l1 ++ l2) =
      match processHeaderLines h l1 with
      | none => none
      | some h' => processHeaderLines h' l2 := by
  induction l1 with
  | nil => intro h l2; rfl
  | cons l t ih =>
    intro h l2
    rw [List.cons_append, processHeaderLines, processHeaderLines]
    by_cases hl : l.length = 0
    · rw [if_pos hl, if_pos hl, ih]
    · rw [if_neg hl, if_neg hl]
      rcases hx : splitFirst ':' l with _ | ⟨k, _ | ⟨v, _ | _⟩⟩ <;> try rfl
      exact ih _ l2

/-- A non-empty header line without a colon aborts the header loop. -/
theorem processHeaderLines_bad (lines : List Str) : ∀ (h : Headers),
    (∃ l ∈ lines, l ≠ [] ∧ ∀ c ∈ l, c ≠ ':') →
    processHeaderLines h lines = none := by
  induction lines with
  | nil => intro h hbad; simp at hbad
  | cons l t ih =>
    intro h hbad
    rw [processHeaderLines]
    rcases hbad with ⟨l0, hl0, hne, hnc⟩
    rcases List.mem_cons.mp hl0 with h1 | h1
    · subst h1
      rw [if_neg (by simpa using hne)]
      rw [splitFirst_noSep hnc]
    · by_cases hl : l.length = 0
      · rw [if_pos hl]
        exact ih h ⟨l0, h1, hne, hnc⟩
      · rw [if_neg hl]
        rcases hx : splitFirst ':' l with _ | ⟨k, _ | ⟨v, _ | _⟩⟩ <;> try rfl
        exact ih _ ⟨l0, h1, hne, hnc⟩

/-- Unfolding of the CR-freedom test. -/
theorem noCR_iff {s : Str} : noCR s = true ↔ ∀ c ∈ s, c ≠ '\r' := by
  simp [noCR]

/-- Processing the wire-encoded header lines of case-insensitively
distinct valid entries appends their canonicalised forms to the
accumulated map. -/
theorem processHeaderLines_wire (hdrs : Headers) : ∀ (acc : Headers),
    (∀ e ∈ hdrs, validHeader e = true) →
    keysDistinctFold (hdrs.map Prod.fst) = true →
    (∀ e ∈ hdrs, ∀ a ∈ acc, eqFold a.1 e.1 = false) →
    processHeaderLines acc (hdrs.map (fun e => e.1 ++ ':' :: ' ' :: e.2)) =
      some (acc ++ hdrs.map (fun e => (canonicalHeaderKey e.1, e.2))) := by
  induction hdrs with
  | nil => intro acc _ _ _; simp [processHeaderLines]
  | cons e t ih =>
    intro acc hval hdist hfresh
    obtain ⟨k, v⟩ := e
    have hv := hval (k, v) (List.mem_cons_self ..)
    simp only [validHeader, Bool.and_eq_true, decide_eq_true_iff, List.all_eq_true] at hv
    obtain ⟨⟨⟨⟨⟨⟨h1, h2⟩, h3⟩, h4⟩, h5⟩, h6⟩, h7⟩ := hv
    have hk : k ≠ [] := by
      intro hcontra
      subst hcontra
      simp at h1
    have hvne : v ≠ [] := by
      intro hcontra
      subst hcontra
      simp at h5
    have hdist' : keysDistinctFold (((k, v) :: t).map Prod.fst) = true := hdist
    rw [List.map_cons, keysDistinctFold, Bool.and_eq_true, List.all_eq_true] at hdist'
    simp only [List.map_cons]
    rw [processHeaderLines]
    rw [if_neg (by simp)]
    rw [splitFirst_append (fun c hc => h3 c hc)]
    show processHeaderLines (headersSet acc (trimSpace k) (trimSpace (' ' :: v))) _ = _
    rw [h4, trimSpace_cons_space, h7]
    rw [headersSet_nonempty hk hvne, h4]
    rw [setExisting_none_iff.mpr (fun a ha => hfresh (k, v) (List.mem_cons_self ..) a ha)]
    rw [ih (acc ++ [(canonicalHeaderKey k, v)])
      (fun e he => hval e (List.mem_cons_of_mem _ he))
      hdist'.2
      ?_]
    · simp
    · intro e' he' a ha
      rcases List.mem_append.mp ha with h8 | h8
      · exact hfresh e' (List.mem_cons_of_mem _ he') a h8
      · rcases List.mem_singleton.mp h8 with rfl
        show eqFold (canonicalHeaderKey k) e'.1 = false
        rw [eqFold_canon_left]
        have := hdist'.1 e'.1 (List.mem_map_of_mem _ he')
        simpa using this

/-- In the decoded header map a lookup under an original name reads the
original value through the canonicalised stored key. -/
theorem headersGet_wire (hdrs : Headers)
    (hd : keysDistinctFold (hdrs.map Prod.fst) = true) :
    ∀ e ∈ hdrs,
      headersGet (hdrs.map (fun e => (canonicalHeaderKey e.1, e.2))) e.1 = (e.2, true) := by
  induction hdrs with
  | nil => intro e he; cases he
  | cons f t ih =>
    intro e he
    obtain ⟨k, v⟩ := f
    have hd' : keysDistinctFold (((k, v) :: t).map Prod.fst) = true := hd
    rw [List.map_cons, keysDistinctFold, Bool.and_eq_true, List.all_eq_true] at hd'
    rcases List.mem_cons.mp he with h1 | h1
    · subst h1
      simp only [List.map_cons]
      rw [headersGet, if_pos (by rw [eqFold_canon_left]; exact eqFold_refl k)]
    · simp only [List.map_cons]
      rw [headersGet, if_neg ?_]
      · exact ih hd'.2 e h1
      · intro hc
        rw [eqFold_canon_left] at hc
        have := hd'.1 e.1 (List.mem_map_of_mem _ h1)
        rw [hc] at this
        simp at this

/-- Unpacking of the request-line field validity predicate. -/
theorem validMeta_parts {f : Str} (h : validMeta f = true) :
    f ≠ [] ∧ (∀ c ∈ f, c ≠ '\r') ∧ (∀ c ∈ f, c ≠ ' ') ∧ trimSpace f = f := by
  simp only [validMeta, Bool.and_eq_true, decide_eq_true_iff, List.all_eq_true,
    noCR, Bool.not_eq_true'] at h
  obtain ⟨⟨⟨h1, h2⟩, h3⟩, h4⟩ := h
  exact ⟨by simpa [List.isEmpty_iff] using h1, fun c hc => by simpa using h2 c hc,
    fun c hc => h3 c hc, h4⟩

/-- CRLF-splitting the wire header block followed by the blank line and
the body yields the header line bodies, an empty part and the body. -/
theorem splitCRLF_headerBlock (body : Str) (hb : ∀ c ∈ body, c ≠ '\r') :
    ∀ (hdrs : Headers), (∀ e ∈ hdrs, validHeader e = true) →
    splitCRLF ((hdrs.map headerLine).flatten ++ (crlf ++ body)) =
      hdrs.map (fun e => e.1 ++ ':' :: ' ' :: e.2) ++ [[], body] := by
  intro hdrs
  induction hdrs with
  | nil =>
    intro _
    simp only [List.map_nil, List.flatten_nil, List.nil_append]
    have := splitCRLF_append (a := []) (by simp) body
    simp only [List.nil_append] at this
    rw [this, splitCRLF_noCR hb]
  | cons e t ih =>
    intro hval
    have hv := hval e (List.mem_cons_self ..)
    simp only [validHeader, Bool.and_eq_true, decide_eq_true_iff, List.all_eq_true] at hv
    obtain ⟨⟨⟨⟨⟨⟨h1, h2⟩, h3⟩, h4⟩, h5⟩, h6⟩, h7⟩ := hv
    simp only [List.map_cons, List.flatten_cons]
    have hshape : headerLine e ++ ((t.map headerLine).flatten ++ (crlf ++ body)) =
        (e.1 ++ ':' :: ' ' :: e.2) ++ crlf ++ ((t.map headerLine).flatten ++ (crlf ++ body)) := by
      unfold headerLine
      simp [List.append_assoc]
    rw [List.append_assoc, hshape]
    rw [splitCRLF_append ?_ _]
    · rw [ih (fun e' he' => hval e' (List.mem_cons_of_mem _ he'))]
      rfl
    · intro c hc
      rcases List.mem_append.mp hc with h8 | h8
      · exact (noCR_iff.mp h2) c h8
      · rcases List.mem_cons.mp h8 with h9 | h9
        · subst h9; decide
        · rcases List.mem_cons.mp h9 with h10 | h10
          · subst h10; decide
          · exact (noCR_iff.mp h6) c h10

/-- Decoding the wire encoding of a valid request yields the request
with canonicalised header keys, the original body and a nil error. -/
theorem From_wireEncode (R : Request) (hval : ValidRequest R = true) :
    Request.From (wireEncode R) =
      some ({ method := R.method, target := R.target, version := R.version,
              headers := R.headers.map (fun e => (canonicalHeaderKey e.1, e.2)),
              body := R.body }, none) := by
  obtain ⟨m, t, v, hdrs, body⟩ := R
  simp only [ValidRequest, Bool.and_eq_true] at hval
  obtain ⟨⟨⟨⟨⟨hm, ht⟩, hv⟩, hh⟩, hdist⟩, hbody⟩ := hval
  obtain ⟨hm1, hm2, hm3, hm4⟩ := validMeta_parts hm
  obtain ⟨ht1, ht2, ht3, ht4⟩ := validMeta_parts ht
  obtain ⟨hv1, hv2, hv3, hv4⟩ := validMeta_parts hv
  have hbodyCR : ∀ c ∈ body, c ≠ '\r' := noCR_iff.mp hbody
  have hvalH : ∀ e ∈ hdrs, validHeader e = true := List.all_eq_true.mp hh
  have hreqCR : ∀ c ∈ (m ++ ' ' :: (t ++ ' ' :: v)), c ≠ '\r' := by
    intro c hc
    rcases List.mem_append.mp hc with h1 | h1
    · exact hm2 c h1
    · rcases List.mem_cons.mp h1 with h2 | h2
      · subst h2; decide
      · rcases List.mem_append.mp h2 with h3 | h3
        · exact ht2 c h3
        · rcases List.mem_cons.mp h3 with h4 | h4
          · subst h4; decide
          · exact hv2 c h4
  have hshape : wireEncode ⟨m, t, v, hdrs, body⟩ =
      (m ++ ' ' :: (t ++ ' ' :: v)) ++ crlf ++
        ((hdrs.map headerLine).flatten ++ (crlf ++ body)) := by
    simp [wireEncode, List.append_assoc, List.cons_append]
  have hparts : splitCRLF (wireEncode ⟨m, t, v, hdrs, body⟩) =
      (m ++ ' ' :: (t ++ ' ' :: v)) ::
        (hdrs.map (fun e => e.1 ++ ':' :: ' ' :: e.2) ++ [[], body]) := by
    rw [hshape, splitCRLF_append hreqCR, splitCRLF_headerBlock body hbodyCR hdrs hvalH]
  have hmeta : splitOn ' ' (m ++ ' ' :: (t ++ ' ' :: v)) = [m, t, v] := by
    rw [splitOn_append hm3, splitOn_append ht3, splitOn_noSep hv3]
  simp only [Request.From]
  rw [hparts]
  simp only [List.headD_cons, hmeta]
  simp only [List.get?_cons_zero, List.get?_cons_succ]
  rw [if_neg (by simp)]
  have hdrop : (((m ++ ' ' :: (t ++ ' ' :: v)) ::
      (hdrs.map (fun e => e.1 ++ ':' :: ' ' :: e.2) ++ [[], body])).drop 1).dropLast =
      hdrs.map (fun e => e.1 ++ ':' :: ' ' :: e.2) ++ [[]] := by
    show (hdrs.map (fun e => e.1 ++ ':' :: ' ' :: e.2) ++ [[], body]).dropLast = _
    have : hdrs.map (fun e => e.1 ++ ':' :: ' ' :: e.2) ++ [[], body] =
        (hdrs.map (fun e => e.1 ++ ':' :: ' ' :: e.2) ++ [[]]) ++ [body] := by
      simp
    rw [this, List.dropLast_concat]
  rw [hdrop]
  rw [processHeaderLines_append]
  rw [processHeaderLines_wire hdrs [] hvalH hdist (fun e _ a ha => by cases ha)]
  have hskip : processHeaderLines (hdrs.map fun e => (canonicalHeaderKey e.1, e.2)) [[]] =
      some (hdrs.map fun e => (canonicalHeaderKey e.1, e.2)) := by
    simp [processHeaderLines]
  simp only [List.nil_append] at hskip ⊢
  rw [hskip]
  have hlast : (((m ++ ' ' :: (t ++ ' ' :: v)) ::
      (hdrs.map (fun e => e.1 ++ ':' :: ' ' :: e.2) ++ [[], body]))).getLastD ([] : Str) = body := by
    rw [List.getLastD_cons]
    have : hdrs.map (fun e => e.1 ++ ':' :: ' ' :: e.2) ++ [[], body] =
        (hdrs.map (fun e => e.1 ++ ':' :: ' ' :: e.2) ++ [[]]) ++ [body] := by
      simp
    rw [this, List.getLastD_concat]
  rw [hlast, hm4, ht4, hv4]

/-- A request line with fewer than three space-separated tokens makes
decoding abort (the Go index-out-of-range panic). -/
theorem From_none_of_short (b : Str)
    (h : (splitOn ' ' ((splitCRLF b).headD [])).length < 3) :
    Request.From b = none := by
  simp only [Request.From]
  have h2 : (splitOn ' ' ((splitCRLF b).headD [])).get? 2 = none :=
    List.get?_eq_none.mpr (by omega)
  rw [h2]
  rcases hx0 : (splitOn ' ' ((splitCRLF b).headD [])).get? 0 with _ | m <;>
    rcases hx1 : (splitOn ' ' ((splitCRLF b).headD [])).get? 1 with _ | t <;> rfl

/-- A non-empty colon-free header line makes decoding abort (the Go
index-out-of-range panic on `kv[1]`). -/
theorem From_none_of_badHeader (b : Str)
    (hbad : ∃ l ∈ ((splitCRLF b).drop 1).dropLast, l ≠ [] ∧ ∀ c ∈ l, c ≠ ':') :
    Request.From b = none := by
  simp only [Request.From]
  rcases hx0 : (splitOn ' ' ((splitCRLF b).headD [])).get? 0 with _ | m <;>
    rcases hx1 : (splitOn ' ' ((splitCRLF b).headD [])).get? 1 with _ | t <;>
    rcases hx2 : (splitOn ' ' ((splitCRLF b).headD [])).get? 2 with _ | v <;>
    try rfl
  dsimp only
  by_cases hlen : (splitCRLF b).length < 2
  · rw [if_pos hlen]
  · rw [if_neg hlen, processHeaderLines_bad _ _ hbad]

/-- Every completing path of `Request.From` carries a nil Go error. -/
theorem From_error_nil (b : Str) :
    ((Request.From b).map Prod.snd).getD none = none := by
  simp only [Request.From]
  rcases hx0 : (splitOn ' ' ((splitCRLF b).headD [])).get? 0 with _ | m <;>
    rcases hx1 : (splitOn ' ' ((splitCRLF b).headD [])).get? 1 with _ | t <;>
    rcases hx2 : (splitOn ' ' ((splitCRLF b).headD [])).get? 2 with _ | v <;>
    try rfl
  dsimp only
  by_cases hlen : (splitCRLF b).length < 2
  · rw [if_pos hlen]
    rfl
  · rw [if_neg hlen]
    rcases hp : processHeaderLines [] (((splitCRLF b).drop 1).dropLast) with _ | hs <;> rfl

/-- A present `Connection` entry leaves the response headers unchanged. -/
theorem respHeaders_found {hs : Headers}
    (h : (headersGet hs connectionKey).2 = true) :
    respHeaders (some hs) = hs := by
  show (if (headersGet hs connectionKey).2 = true then hs
    else headersSet hs connectionKey keepAliveVal) = hs
  rw [if_pos h]

/-- Without a `Connection` entry the encoder appends the keep-alive
default. -/
theorem respHeaders_notFound {hs : Headers}
    (h : (headersGet hs connectionKey).2 = false) :
    respHeaders (some hs) = hs ++ [(connectionKey, keepAliveVal)] := by
  show (if (headersGet hs connectionKey).2 = true then hs
    else headersSet hs connectionKey keepAliveVal) = hs ++ [(connectionKey, keepAliveVal)]
  rw [if_neg (by rw [h]; simp)]
  rw [headersSet_nonempty (by decide) (by decide)]
  have htrim : trimSpace connectionKey = connectionKey := by decide
  rw [htrim]
  have hnone : setExisting connectionKey keepAliveVal hs = none := by
    rw [setExisting_none_iff]
    intro e he
    cases hx : eqFold e.1 connectionKey with
    | false => rfl
    | true =>
      have : (headersGet hs connectionKey).2 = true :=
        (headersGet_found_iff hs connectionKey).mpr ⟨e, he, hx⟩
      rw [h] at this
      cases this
  rw [hnone]
  have hcanon : canonicalHeaderKey connectionKey = connectionKey := by decide
  rw [hcanon]

/-- The routing loop returns the handler of the first matching entry. -/
theorem routeSelect_find {α : Type} (routes : List (RouteEntry α)) (nf : α) (m tgt : Str) :
    routeSelect routes nf m tgt =
      ((routes.find? (fun r => decide (m = r.method) && r.pre.isPrefixOf tgt)).map
        RouteEntry.handler).getD nf := by
  induction routes with
  | nil => rfl
  | cons r t ih =>
    rw [routeSelect]
    by_cases hc : m = r.method ∧ r.pre.isPrefixOf tgt = true
    · rw [if_pos ⟨hc.1, hc.2⟩]
      rw [List.find?_cons_of_pos _ (by simp [hc.1, hc.2])]
      rfl
    · rw [if_neg (fun hcc => hc ⟨hcc.1, hcc.2⟩)]
      rw [List.find?_cons_of_neg _ (by
        simp only [Bool.and_eq_true, decide_eq_true_iff]
        exact fun hcc => hc hcc)]
      exact ih

/-- A failed lookup carries the empty string as its value. -/
theorem headersGet_fst_of_not_found {h : Headers} {k : Str}
    (hn : (headersGet h k).2 = false) : (headersGet h k).1 = [] := by
  induction h with
  | nil => rfl
  | cons e t ih =>
    obtain ⟨hk, v⟩ := e
    rw [headersGet] at hn ⊢
    by_cases hm : eqFold hk k = true
    · rw [if_pos hm] at hn
      simp at hn
    · rw [if_neg hm] at hn ⊢
      exact ih hn

/-- The response encoder output as one conditional equation. -/
theorem httpResponseStr_eq (code : Nat) (ho : Option Headers) (body : Str) :
    httpResponseStr code ho body =
      if 0 < body.length then
        statusLine code ++ ((respHeaders ho).map headerLine).flatten ++
          "Content-Length: ".data ++ natToStr body.length ++ crlf ++ crlf ++ body
      else statusLine code ++ ((respHeaders ho).map headerLine).flatten := by
  unfold httpResponseStr
  split
  · simp [List.append_assoc]
  · rfl

/-- The header map seen by the encoder depends only on the defaulted
map. -/
theorem respHeaders_getD (ho : Option Headers) :
    respHeaders ho = respHeaders (some (ho.getD [])) := by
  cases ho <;> rfl

/-! ### Claims -/

/-- C1: for every byte sequence `x`, including the empty sequence, the
gzip codec satisfies `decode (encode x) = x`: `Encode` followed by
`Decode` returns exactly the original bytes. -/
theorem claim_C1_gzip_roundtrip (x : Bytes) (hx : ∀ b ∈ x, b < 256) :
    gzipDecode (gzipEncode x) = some x := by
  have hc := crc32_lt x hx
  have hi : x.length % 4294967296 < 4294967296 := Nat.mod_lt _ (by norm_num)
  rw [gzipEncode, gzipHeader]
  simp only [List.cons_append, List.nil_append, List.append_assoc]
  rw [gzipDecode]
  have hstream := inflate_deflate x.length x le_rfl
    (le32 (crc32 x) ++ le32 (x.length % 4294967296))
  split
  · rename_i heq
    rw [hstream] at heq
    simp at heq
  · rename_i data rem heq
    rw [hstream, Option.some.injEq, Prod.mk.injEq] at heq
    obtain ⟨hd, hr⟩ := heq
    subst hd
    subst hr
    simp only [le32, List.cons_append, List.nil_append]
    rw [if_pos ⟨le32val_split _ hc, le32val_split _ hi⟩]

/-- Witness for C1 at the concrete byte sequence `[104, 105]` (the
bytes of `"hi"`). -/
theorem claim_C1_gzip_roundtrip_witness :
    (∀ b ∈ [104, 105], b < 256) ∧
      gzipDecode (gzipEncode [104, 105]) = some [104, 105] :=
  ⟨by decide, claim_C1_gzip_roundtrip [104, 105] (by decide)⟩

/-- C2 fails as stated: on the buffer `GET /` CRLF CRLF, whose request
line has only two space-separated tokens, decoding aborts with the
modelled index-out-of-range panic (`none`) — no result and in
particular no explicit `MalformedRequestLine` error value is
produced. -/
theorem claim_C2_counterexample :
    Request.From ("GET /".data ++ crlf ++ crlf) = none := by decide

/-- C2 (amended): a request line with fewer than three space-separated
tokens makes decoding abort via the out-of-range panic (modelled as no
result, not an explicit `MalformedRequestLine` error), and so does a
non-empty header line with no colon. -/
theorem claim_C2_panic_on_malformed :
    (∀ b : Str, (splitOn ' ' ((splitCRLF b).headD [])).length < 3 →
      Request.From b = none) ∧
    (∀ b : Str,
      (∃ l ∈ ((splitCRLF b).drop 1).dropLast, l ≠ [] ∧ ∀ c ∈ l, c ≠ ':') →
      Request.From b = none) :=
  ⟨From_none_of_short, From_none_of_badHeader⟩

/-- Witness for C2 on a two-token request line and on a colon-free
header line. -/
theorem claim_C2_panic_on_malformed_witness :
    ((splitOn ' ' ((splitCRLF ("GET /".data ++ crlf ++ crlf)).headD [])).length < 3 ∧
      Request.From ("GET /".data ++ crlf ++ crlf) = none) ∧
    ((∃ l ∈ ((splitCRLF ("GET / HTTP/1.1".data ++ crlf ++ "nocolon".data ++
          crlf ++ crlf)).drop 1).dropLast, l ≠ [] ∧ ∀ c ∈ l, c ≠ ':') ∧
      Request.From ("GET / HTTP/1.1".data ++ crlf ++ "nocolon".data ++
        crlf ++ crlf) = none) :=
  ⟨⟨by decide, claim_C2_panic_on_malformed.1 _ (by decide)⟩,
   ⟨by decide, claim_C2_panic_on_malformed.2 _ (by decide)⟩⟩

/-- C10: on every input on which request decoding completes,
`Request.From` returns a nil Go error — no code path produces a non-nil
error — so the caller's decode-failure branch is unreachable through
the error return value. -/
theorem claim_C10_no_error (b : Str) :
    ((Request.From b).map Prod.snd).getD none = none :=
  From_error_nil b

/-- C3 fails as stated for case-variant names carrying whitespace:
`set` with name `" A"` stores the trimmed key `A`, so a `get` with the
case-variant `" a"` finds nothing instead of the value most recently
set. -/
theorem claim_C3_counterexample :
    headersGet (headersSet [] (" A".data) ("v".data)) (" a".data) = ([], false) := by
  decide

/-- C3 (amended): starting from an empty map, any sequence of `set`
calls keeps at most one stored entry per case-insensitive name; and for
whitespace-free names differing only in case — with a non-empty name, a
non-empty value and the map invariant — `get` after `set` with either
name returns the value just set, while overwriting an existing
case-insensitive match keeps the stored keys (and so their casing)
unchanged. -/
theorem claim_C3_header_map_invariant :
    (∀ ops : List (Str × Str),
      hdrInv (ops.foldl (fun h kv => headersSet h kv.1 kv.2) []) = true) ∧
    (∀ (h : Headers) (n1 n2 v : Str), hdrInv h = true → trimSpace n1 = n1 →
      n1 ≠ [] → v ≠ [] → eqFold n1 n2 = true →
      headersGet (headersSet h n1 v) n2 = (v, true)) ∧
    (∀ (h : Headers) (n1 v : Str), n1 ≠ [] → v ≠ [] →
      (∃ e ∈ h, eqFold e.1 (trimSpace n1) = true) →
      (headersSet h n1 v).map Prod.fst = h.map Prod.fst) := by
  refine ⟨?_, ?_, ?_⟩
  · have aux : ∀ (ops : List (Str × Str)) (h : Headers), hdrInv h = true →
        hdrInv (ops.foldl (fun h kv => headersSet h kv.1 kv.2) h) = true := by
      intro ops
      induction ops with
      | nil => intro h hh; exact hh
      | cons kv t ih =>
        intro h hh
        exact ih _ (hdrInv_set _ _ hh)
    exact fun ops => aux ops [] rfl
  · intro h n1 n2 v _ ht hn hv hf
    exact headersGet_set ht hn hv hf
  · intro h n1 v hn hv hex
    obtain ⟨e, he, hef⟩ := hex
    rw [headersSet_nonempty hn hv]
    rcases hx : setExisting (trimSpace n1) v h with _ | h'
    · have := setExisting_none_iff.mp hx e he
      rw [hef] at this
      cases this
    · exact setExisting_keys hx

/-- Witness for C3: two case-variant insertions collapse to one entry,
a case-variant `get` after `set` reads the new value, and an overwrite
keeps the stored key casing. -/
theorem claim_C3_header_map_invariant_witness :
    hdrInv ([(("Content-Type".data : Str), ("a".data : Str)),
        (("content-type".data : Str), ("b".data : Str))].foldl
      (fun h kv => headersSet h kv.1 kv.2) []) = true ∧
    headersGet (headersSet [(("Connection".data : Str), ("close".data : Str))]
      ("connection".data) ("keep-alive".data)) ("CONNECTION".data) =
      ("keep-alive".data, true) ∧
    (headersSet [(("Connection".data : Str), ("close".data : Str))]
      ("connection".data) ("keep-alive".data)).map Prod.fst =
      [(("Connection".data : Str), ("close".data : Str))].map Prod.fst :=
  ⟨claim_C3_header_map_invariant.1 _,
   claim_C3_header_map_invariant.2.1 _ _ _ _ (by decide) (by decide) (by decide)
     (by decide) (by decide),
   claim_C3_header_map_invariant.2.2 _ _ _ (by decide) (by decide)
     ⟨("Connection".data, "close".data), by decide, by decide⟩⟩

/-- C4 fails as stated: `set` with an empty value deletes only the
exactly matching key; with stored key `Connection`, a `set` of
`connection` to the empty value removes nothing and a subsequent `get`
still finds the value. -/
theorem claim_C4_counterexample :
    headersGet (headersSet (headersSet [] ("Connection".data) ("x".data))
      ("connection".data) []) ("connection".data) = ("x".data, true) := by
  decide

/-- C4 (amended): `set` with an empty value is an exact-key delete —
under the map invariant the entry stored under exactly the given name
disappears and `get` then reports not found, while an entry stored
under a different casing of the name survives and `get` still returns
its value. -/
theorem claim_C4_delete_exact :
    (∀ (h : Headers) (k v : Str), hdrInv h = true → k ≠ [] → (k, v) ∈ h →
      headersGet (headersSet h k []) k = ([], false)) ∧
    (∀ (h : Headers) (k k' v : Str), hdrInv h = true → k ≠ [] → (k', v) ∈ h →
      eqFold k' k = true → k' ≠ k →
      headersGet (headersSet h k []) k = (v, true)) := by
  have hset : ∀ (h : Headers) (k : Str), k ≠ [] →
      headersSet h k [] = eraseKey h k := by
    intro h k hk
    unfold headersSet
    rw [if_neg hk, if_pos rfl]
  constructor
  · intro h k v hi hk hm
    rw [hset h k hk]
    refine headersGet_none ?_
    intro e he
    have hmem := List.mem_filter.mp he
    have hnek : e.1 ≠ k := by simpa using hmem.2
    cases hx : eqFold e.1 k with
    | false => rfl
    | true =>
      by_cases heq : e = (k, v)
      · exact absurd (by rw [heq]) hnek
      · have := hdrInv_mem_ne hi hmem.1 hm heq
        rw [hx] at this
        cases this
  · intro h k k' v hi hk hm hf hne
    rw [hset h k hk, eraseKey_eq_self ?_]
    · exact headersGet_unique hi hm hf
    · intro e he hek
      by_cases heq : e = (k', v)
      · rw [heq] at hek
        exact hne hek
      · have h2 := hdrInv_mem_ne hi he hm heq
        rw [hek, eqFold_symm hf] at h2
        cases h2

/-- Witness for C4: exact-key delete removes `Connection` itself, while
a delete under the case-variant `connection` leaves the entry visible. -/
theorem claim_C4_delete_exact_witness :
    headersGet (headersSet [(("Connection".data : Str), ("x".data : Str))]
      ("Connection".data) []) ("Connection".data) = ([], false) ∧
    headersGet (headersSet [(("Connection".data : Str), ("x".data : Str))]
      ("connection".data) []) ("connection".data) = ("x".data, true) :=
  ⟨claim_C4_delete_exact.1 _ _ ("x".data) (by decide) (by decide) (by decide),
   claim_C4_delete_exact.2 _ _ ("Connection".data) _ (by decide) (by decide)
     (by decide) (by decide) (by decide)⟩

/-- C5 fails as stated: with a caller-supplied `Content-Length` header
entry and a zero-length body, the emitted response does contain a
`Content-Length` header line. -/
theorem claim_C5_counterexample :
    httpResponseStr 200 (some [(("Content-Length".data : Str), ("5".data : Str))]) [] =
      "HTTP/1.1 200 OK".data ++ crlf ++ "Content-Length: 5".data ++ crlf ++
        "Connection: keep-alive".data ++ crlf := by
  decide

/-- C5 (amended): provided the supplied header map has no
case-insensitive `Content-Length` entry of its own, the defaulted
header block still has none; a zero-length body yields a response that
ends immediately after the last header line's CRLF (no blank-line body
section, so no `Content-Length` anywhere); and a body of `N > 0` bytes
yields exactly the header block followed by `Content-Length: N`, a
blank CRLF line and the `N` body bytes. -/
theorem claim_C5_content_length (code : Nat) (ho : Option Headers) (body : Str)
    (hcl : (ho.getD []).all (fun e => !(eqFold e.1 contentLengthKey)) = true) :
    (respHeaders ho).all (fun e => !(eqFold e.1 contentLengthKey)) = true ∧
    (body = [] → httpResponseStr code ho body =
      statusLine code ++ ((respHeaders ho).map headerLine).flatten) ∧
    (body ≠ [] → httpResponseStr code ho body =
      statusLine code ++ ((respHeaders ho).map headerLine).flatten ++
        "Content-Length: ".data ++ natToStr body.length ++ crlf ++ crlf ++ body) := by
  refine ⟨?_, ?_, ?_⟩
  · rw [respHeaders_getD]
    by_cases hfound : (headersGet (ho.getD []) connectionKey).2 = true
    · rw [respHeaders_found hfound]
      exact hcl
    · rw [respHeaders_notFound (Bool.eq_false_iff.mpr hfound)]
      rw [List.all_append]
      rw [hcl]
      decide
  · intro hb
    subst hb
    rw [httpResponseStr_eq, if_neg (by simp)]
  · intro hb
    rw [httpResponseStr_eq, if_pos (List.length_pos.mpr hb)]

/-- Witness for C5 at a map with one `Content-Type` entry, once with an
empty and once with a five-byte body. -/
theorem claim_C5_content_length_witness :
    ((some [(("Content-Type".data : Str), ("text/plain".data : Str))]).getD []).all
      (fun e => !(eqFold e.1 contentLengthKey)) = true ∧
    ([] = ([] : Str) → httpResponseStr 200
      (some [(("Content-Type".data : Str), ("text/plain".data : Str))]) [] =
      statusLine 200 ++ ((respHeaders (some [(("Content-Type".data : Str),
        ("text/plain".data : Str))])).map headerLine).flatten) ∧
    ("hello".data ≠ ([] : Str) → httpResponseStr 200
      (some [(("Content-Type".data : Str), ("text/plain".data : Str))]) ("hello".data) =
      statusLine 200 ++ ((respHeaders (some [(("Content-Type".data : Str),
        ("text/plain".data : Str))])).map headerLine).flatten ++
        "Content-Length: ".data ++ natToStr ("hello".data).length ++ crlf ++ crlf ++
        "hello".data) :=
  ⟨by decide,
   (claim_C5_content_length 200 _ [] (by decide)).2.1,
   (claim_C5_content_length 200 _ ("hello".data) (by decide)).2.2⟩

/-- C6: under the header-map invariant, when the supplied map (a nil
map treated as empty) has no case-insensitive `Connection` entry the
encoder appends `Connection: keep-alive`; an already-present entry is
left unchanged; exactly one emitted header entry carries the
`Connection` name; and the output consists of the status line, those
header lines and the body section. -/
theorem claim_C6_connection_default (code : Nat) (ho : Option Headers) (body : Str)
    (hi : hdrInv (ho.getD []) = true) :
    ((headersGet (ho.getD []) connectionKey).2 = false →
      respHeaders ho = ho.getD [] ++ [(connectionKey, keepAliveVal)]) ∧
    ((headersGet (ho.getD []) connectionKey).2 = true →
      respHeaders ho = ho.getD []) ∧
    ((respHeaders ho).filter (fun e => eqFold e.1 connectionKey)).length = 1 ∧
    httpResponseStr code ho body =
      statusLine code ++ ((respHeaders ho).map headerLine).flatten ++
        (if 0 < body.length then
          "Content-Length: ".data ++ natToStr body.length ++ crlf ++ crlf ++ body
        else []) := by
  refine ⟨?_, ?_, ?_, ?_⟩
  · intro hnf
    rw [respHeaders_getD]
    exact respHeaders_notFound hnf
  · intro hf
    rw [respHeaders_getD]
    exact respHeaders_found hf
  · rw [respHeaders_getD]
    by_cases hfound : (headersGet (ho.getD []) connectionKey).2 = true
    · rw [respHeaders_found hfound]
      exact filter_fold_len_one hi hfound
    · rw [respHeaders_notFound (Bool.eq_false_iff.mpr hfound)]
      rw [List.filter_append]
      rw [filter_fold_nil (fun e he => by
        cases hx : eqFold e.1 connectionKey with
        | false => rfl
        | true =>
          exact absurd ((headersGet_found_iff _ _).mpr ⟨e, he, hx⟩) hfound)]
      simp [eqFold_refl]
  · rw [httpResponseStr_eq]
    by_cases hb : 0 < body.length
    · rw [if_pos hb, if_pos hb]
      simp [List.append_assoc]
    · rw [if_neg hb, if_neg hb]
      simp

/-- Witness for C6 on the nil header map with an empty body: the
keep-alive default is appended and is the single `Connection` line. -/
theorem claim_C6_connection_default_witness :
    ((headersGet ((none : Option Headers).getD []) connectionKey).2 = false →
      respHeaders none = (none : Option Headers).getD [] ++
        [(connectionKey, keepAliveVal)]) ∧
    ((respHeaders (none : Option Headers)).filter
      (fun e => eqFold e.1 connectionKey)).length = 1 :=
  ⟨(claim_C6_connection_default 404 none [] (by decide)).1,
   (claim_C6_connection_default 404 none [] (by decide)).2.2.1⟩

/-- C7: routing scans the registered routes in registration order and
selects the handler of the first entry whose method equals the request
method and whose path-prefix is a prefix of the target; with
`/api/specific` registered before `/api`, a request for
`/api/specific/x` selects the `/api/specific` handler and never the
`/api` one; and on no match the fixed not-found handler runs, whose
written bytes form a status-404 response with no body. -/
theorem claim_C7_router_first_match :
    (∀ (α : Type) (routes : List (RouteEntry α)) (nf : α) (m tgt : Str),
      routeSelect routes nf m tgt =
        ((routes.find? (fun r => decide (m = r.method) && r.pre.isPrefixOf tgt)).map
          RouteEntry.handler).getD nf) ∧
    (routeSelect [⟨"GET".data, "/api/specific".data, (1 : Nat)⟩,
        ⟨"GET".data, "/api".data, 2⟩] 0 ("GET".data) ("/api/specific/x".data) = 1 ∧
      (1 : Nat) ≠ 2) ∧
    notFoundResponse = "HTTP/1.1 404 Not Found".data ++ crlf ++
      "Connection: keep-alive".data ++ crlf :=
  ⟨fun α routes nf m tgt => routeSelect_find routes nf m tgt,
   ⟨by decide, by decide⟩, by decide⟩

/-- C8: for every request, an HTTP/1.1 version keeps the connection
alive exactly unless the `Connection` value case-insensitively equals
`close`, any other version keeps it alive exactly when the value
case-insensitively equals `keep-alive`, and when the header is absent
the connection stays open exactly for HTTP/1.1. -/
theorem claim_C8_keep_alive (req : Request) :
    (req.version = "HTTP/1.1".data →
      (keepAliveOf req = false ↔
        eqFold (headersGet req.headers connectionKey).1 closeVal = true)) ∧
    (req.version ≠ "HTTP/1.1".data →
      (keepAliveOf req = true ↔
        eqFold (headersGet req.headers connectionKey).1 keepAliveVal = true)) ∧
    ((headersGet req.headers connectionKey).2 = false →
      (keepAliveOf req = true ↔ req.version = "HTTP/1.1".data)) := by
  unfold keepAliveOf keepAliveDecision
  refine ⟨?_, ?_, ?_⟩
  · intro hv
    rw [if_pos hv]
    cases hx : eqFold (headersGet req.headers connectionKey).1 closeVal <;> simp [hx]
  · intro hv
    rw [if_neg hv]
  · intro hnf
    have h0 := headersGet_fst_of_not_found hnf
    rw [h0]
    by_cases hv : req.version = "HTTP/1.1".data
    · rw [if_pos hv]
      constructor
      · intro _; exact hv
      · intro _; decide
    · rw [if_neg hv]
      constructor
      · intro hc
        exfalso
        revert hc
        decide
      · intro hc
        exact absurd hc hv

/-- Witness for C8: an HTTP/1.1 request without a `Connection` header
stays open and an HTTP/1.0 request without one closes. -/
theorem claim_C8_keep_alive_witness :
    ((headersGet ([] : Headers) connectionKey).2 = false →
      (keepAliveOf ⟨"GET".data, "/".data, "HTTP/1.1".data, [], []⟩ = true ↔
        (⟨"GET".data, "/".data, "HTTP/1.1".data, [], []⟩ : Request).version =
          "HTTP/1.1".data)) ∧
    ((headersGet ([] : Headers) connectionKey).2 = false →
      (keepAliveOf ⟨"GET".data, "/".data, "HTTP/1.0".data, [], []⟩ = true ↔
        (⟨"GET".data, "/".data, "HTTP/1.0".data, [], []⟩ : Request).version =
          "HTTP/1.1".data)) :=
  ⟨(claim_C8_keep_alive ⟨"GET".data, "/".data, "HTTP/1.1".data, [], []⟩).2.2,
   (claim_C8_keep_alive ⟨"GET".data, "/".data, "HTTP/1.0".data, [], []⟩).2.2⟩

/-- C9 fails as stated: the request with the non-empty method `GET`,
non-empty target `a b`, non-empty version `HTTP/1.1`, colon-separated
header lines (none) and a body is within the claim's stated validity,
yet decoding its wire serialisation yields the target `a`, not `a b`. -/
theorem claim_C9_counterexample :
    (Request.From (wireEncode
      ⟨"GET".data, "a b".data, "HTTP/1.1".data, [], "x".data⟩)).map
      (fun p => p.1.target) = some ("a".data) := by
  decide

/-- C9 (amended): for every wire-valid request — method, target and
version non-empty, CR-free, space-free and trim-invariant; header names
non-empty, colon-free, CR-free, trim-invariant and pairwise
case-insensitively distinct; header values non-empty, CR-free and
trim-invariant; body CR-free — decoding the wire serialisation recovers
method, target and version exactly with a nil error, and a `get` with
each original header name returns exactly the original value (the
stored name casing may be canonicalised). -/
theorem claim_C9_roundtrip (R : Request) (hval : ValidRequest R = true) :
    ∃ R', Request.From (wireEncode R) = some (R', none) ∧
      R'.method = R.method ∧ R'.target = R.target ∧ R'.version = R.version ∧
      ∀ e ∈ R.headers, headersGet R'.headers e.1 = (e.2, true) := by
  refine ⟨_, From_wireEncode R hval, rfl, rfl, rfl, ?_⟩
  have hdist : keysDistinctFold (R.headers.map Prod.fst) = true := by
    have h := hval
    simp only [ValidRequest, Bool.and_eq_true] at h
    exact h.1.2
  exact fun e he => headersGet_wire R.headers hdist e he

/-- Witness for C9 at a concrete GET request with one header and a
body. -/
theorem claim_C9_roundtrip_witness :
    ValidRequest ⟨"GET".data, "/x".data, "HTTP/1.1".data,
      [(("Host".data : Str), ("localhost".data : Str))], "hi".data⟩ = true ∧
    ∃ R', Request.From (wireEncode ⟨"GET".data, "/x".data, "HTTP/1.1".data,
        [(("Host".data : Str), ("localhost".data : Str))], "hi".data⟩) =
        some (R', none) ∧
      R'.method = "GET".data ∧ R'.target = "/x".data ∧
      R'.version = "HTTP/1.1".data ∧
      ∀ e ∈ [(("Host".data : Str), ("localhost".data : Str))],
        headersGet R'.headers e.1 = (e.2, true) :=
  ⟨by decide, claim_C9_roundtrip _ (by decide)⟩

end GoHttp

